import Mathlib

/-!
Verification of the ET:Legacy libs CI grafting script (ci.py).

The script clones (or restores) a staging checkout of the downstream
project, removes its `libs` git submodule (editing `.gitmodules` by a
structured `git config` call with a manual text fallback), re-syncs the
remaining submodules and copies the local working tree into the freed
`libs` directory.

The development below embeds the pure text transformation of the fallback
removal (ci.py lines 37-50), models the command workflow of
`remove_submodule` and `main` over an environment of external-command
outcomes, and models the copy step `copy_local_repo_to_libs` over a small
filesystem tree datatype.  Machine text is represented as `List Char`.
-/

set_option autoImplicit false

/-- Line-boundary characters recognised by Python `str.splitlines`:
newline, carriage return, vertical tab, form feed, the separators
FS/GS/RS, NEL and the Unicode line/paragraph separators. -/
def isLineBreak (c : Char) : Bool :=
  c == '\n' || c == '\r' || c == '\x0b' || c == '\x0c' ||
  c == '\x1c' || c == '\x1d' || c == '\x1e' || c == '\x85' ||
  c == '\u2028' || c == '\u2029'

/-- Whitespace characters stripped by Python `str.strip()` (Unicode
whitespace: ASCII whitespace, the FS/GS/RS/US separators, NEL, NBSP and
the Unicode space category). -/
def pyWS (c : Char) : Bool :=
  c == ' ' || c == '\t' || c == '\n' || c == '\x0b' || c == '\x0c' || c == '\r' ||
  c == '\x1c' || c == '\x1d' || c == '\x1e' || c == '\x1f' || c == '\x85' ||
  c == '\xa0' || c == '\u1680' || c == '\u2000' || c == '\u2001' || c == '\u2002' ||
  c == '\u2003' || c == '\u2004' || c == '\u2005' || c == '\u2006' || c == '\u2007' ||
  c == '\u2008' || c == '\u2009' || c == '\u200a' || c == '\u2028' || c == '\u2029' ||
  c == '\u202f' || c == '\u205f' || c == '\u3000'

/-- Python `line.strip()`: drop leading and trailing whitespace. -/
def stripL (l : List Char) : List Char :=
  ((l.dropWhile pyWS).reverse.dropWhile pyWS).reverse

/-- Python `s.startswith(p)` on character lists. -/
def startsWith : List Char → List Char → Bool
  | _, [] => true
  | [], _ :: _ => false
  | c :: cs, p :: ps => c == p && startsWith cs ps

/-- Worker for Python `str.splitlines`: `acc` holds the characters of the
current line in reverse.  A `"\r\n"` pair counts as a single boundary; a
trailing boundary produces no extra empty line. -/
def splitlinesGo : List Char → List Char → List (List Char)
  | [], acc => if acc = [] then [] else [acc.reverse]
  | [c], acc =>
    if isLineBreak c then [acc.reverse] else [(c :: acc).reverse]
  | c :: d :: cs, acc =>
    if isLineBreak c then
      if c == '\r' && d == '\n' then acc.reverse :: splitlinesGo cs []
      else acc.reverse :: splitlinesGo (d :: cs) []
    else splitlinesGo (d :: cs) (c :: acc)

/-- Python `content.splitlines()` (ci.py line 38). -/
def splitlines (cs : List Char) : List (List Char) := splitlinesGo cs []

/-- Python `"\n".join(lines)`. -/
def joinLines : List (List Char) → List Char
  | [] => []
  | [l] => l
  | l :: ls => l ++ '\n' :: joinLines ls

/-- `new_content = "\n".join(new_lines) + "\n"` (ci.py line 49). -/
def joinNL (ls : List (List Char)) : List Char := joinLines ls ++ ['\n']

/-- The f-string `[submodule "<name>"]` of ci.py line 42. -/
def headerOf (name : List Char) : List Char :=
  ("[submodule \"").data ++ name ++ ("\"]").data

/-- The fallback removal loop of ci.py lines 39-48: a line whose stripped
form starts with the target header switches `skip` on and is dropped; a
line whose stripped form starts with `[` switches `skip` off again and is
kept; lines are kept exactly when `skip` is off after those updates. -/
def removeLoop (hdr : List Char) : Bool → List (List Char) → List (List Char)
  | _, [] => []
  | skip, l :: ls =>
    if startsWith (stripL l) hdr then removeLoop hdr true ls
    else
      let skip2 := if skip && startsWith (stripL l) ['['] then false else skip
      if skip2 then removeLoop hdr skip2 ls else l :: removeLoop hdr skip2 ls

/-- `new_lines` as computed by the fallback for submodule `name`. -/
def removedLines (name : List Char) (lines : List (List Char)) : List (List Char) :=
  removeLoop (headerOf name) false lines

/-- `line.strip().startswith(f"[submodule \"{name}\"]")` (ci.py line 42). -/
def matchesT (name l : List Char) : Bool := startsWith (stripL l) (headerOf name)

/-- The whole fallback rewrite of ci.py lines 37-50: split the file into
lines, run the removal loop, re-join with `"\n"` and append one `"\n"`. -/
def fallbackContent (name content : List Char) : List Char :=
  joinNL (removedLines name (splitlines content))

/-- Serialisation of lines each terminated by one newline.  Used to state
byte-level facts: a well-formed config file is `unlines` of its lines, and
a section block occupies the contiguous byte range `unlines sectionLines`. -/
def unlines : List (List Char) → List Char
  | [] => []
  | l :: ls => l ++ '\n' :: unlines ls

/-- The byte string ends with exactly one trailing newline: its last
character is `'\n'` and the character before it (if any) is not. -/
def endsOneNL (cs : List Char) : Bool :=
  match cs.reverse with
  | [] => false
  | [c] => c == '\n'
  | c :: d :: _ => c == '\n' && !(d == '\n')

/-- An INI-style section: a header line and the body lines up to the next
header. -/
structure CfgSection where
  header : List Char
  body : List (List Char)
deriving DecidableEq

/-- The lines of one section. -/
def sectionLines (s : CfgSection) : List (List Char) := s.header :: s.body

/-- The lines of a sequence of sections. -/
def linesOf (ss : List CfgSection) : List (List Char) := (ss.map sectionLines).flatten

/-- Well-formedness of one section of a git-config style file: the header
strips to a line starting with `[` and contains no line breaks; every body
line is nonempty, contains no line breaks and does not strip to a line
starting with `[` (so in particular the file contains no blank lines,
matching the format `git submodule add` writes). -/
def WFsection (s : CfgSection) : Prop :=
  startsWith (stripL s.header) ['['] = true
  ∧ (∀ c ∈ s.header, isLineBreak c = false)
  ∧ ∀ l ∈ s.body, startsWith (stripL l) ['['] = false ∧ l ≠ [] ∧ ∀ c ∈ l, isLineBreak c = false

instance (s : CfgSection) : Decidable (WFsection s) := by
  unfold WFsection; infer_instance

theorem startsWith_single {s : List Char} {c : Char} {t : List Char}
    (h : startsWith s (c :: t) = true) : startsWith s [c] = true := by
  cases s with
  | nil => simp [startsWith] at h
  | cons a as =>
    simp [startsWith] at h ⊢
    exact h.1

theorem headerOf_eq (name : List Char) :
    headerOf name = '[' :: (("submodule \"").data ++ name ++ ("\"]").data) := by
  simp [headerOf]

theorem bracket_of_matchesT {name l : List Char} (h : matchesT name l = true) :
    startsWith (stripL l) ['['] = true := by
  unfold matchesT at h
  rw [headerOf_eq] at h
  exact startsWith_single h

theorem not_matchesT_of_not_bracket {name l : List Char}
    (hb : startsWith (stripL l) ['['] = false) : matchesT name l = false := by
  cases hq : matchesT name l with
  | false => rfl
  | true => rw [bracket_of_matchesT hq] at hb; exact absurd hb (by simp)

theorem removeLoop_nil (hdr : List Char) (sk : Bool) : removeLoop hdr sk [] = [] := by
  cases sk <;> rfl

theorem removeLoop_cons_match {hdr l : List Char} (ls : List (List Char)) (sk : Bool)
    (h : startsWith (stripL l) hdr = true) :
    removeLoop hdr sk (l :: ls) = removeLoop hdr true ls := by
  simp [removeLoop, h]

theorem removeLoop_cons_keep {hdr l : List Char} (ls : List (List Char))
    (h : startsWith (stripL l) hdr = false) :
    removeLoop hdr false (l :: ls) = l :: removeLoop hdr false ls := by
  simp [removeLoop, h]

theorem removeLoop_cons_skip {hdr l : List Char} (ls : List (List Char))
    (hm : startsWith (stripL l) hdr = false)
    (hb : startsWith (stripL l) ['['] = false) :
    removeLoop hdr true (l :: ls) = removeLoop hdr true ls := by
  simp [removeLoop, hm, hb]

theorem removeLoop_cons_unskip {hdr l : List Char} (ls : List (List Char))
    (hm : startsWith (stripL l) hdr = false)
    (hb : startsWith (stripL l) ['['] = true) :
    removeLoop hdr true (l :: ls) = l :: removeLoop hdr false ls := by
  simp [removeLoop, hm, hb]

/-- With the skip flag off, lines that do not match the target header pass
through the loop unchanged (whether or not they start a section). -/
theorem removeLoop_keep_all {hdr : List Char} (A rest : List (List Char))
    (hA : ∀ l ∈ A, startsWith (stripL l) hdr = false) :
    removeLoop hdr false (A ++ rest) = A ++ removeLoop hdr false rest := by
  induction A with
  | nil => simp
  | cons a A ih =>
    rw [List.cons_append, removeLoop_cons_keep _ (hA a (by simp)),
      ih (fun l hl => hA l (by simp [hl]))]
    rfl

/-- With the skip flag on, lines that do not strip to a `[`-starting line
are dropped and leave the flag on. -/
theorem removeLoop_skip_all {name : List Char} (B rest : List (List Char))
    (hB : ∀ l ∈ B, startsWith (stripL l) ['['] = false) :
    removeLoop (headerOf name) true (B ++ rest) = removeLoop (headerOf name) true rest := by
  induction B with
  | nil => simp
  | cons b B ih =>
    have hb := hB b (by simp)
    rw [List.cons_append,
      removeLoop_cons_skip _ (not_matchesT_of_not_bracket hb) hb,
      ih (fun l hl => hB l (by simp [hl]))]

theorem removeLoop_id_of_no_match {hdr : List Char} (ls : List (List Char))
    (h : ∀ l ∈ ls, startsWith (stripL l) hdr = false) :
    removeLoop hdr false ls = ls := by
  have := removeLoop_keep_all ls [] h
  simpa [removeLoop_nil] using this

/-- A non-target well-formed section passes through the loop intact from
either skip state, leaving the skip flag off. -/
theorem removeLoop_keep_section {name : List Char} (s : CfgSection) (rest : List (List Char))
    (sk : Bool)
    (hh : startsWith (stripL s.header) ['['] = true)
    (hm : matchesT name s.header = false)
    (hb : ∀ l ∈ s.body, startsWith (stripL l) ['['] = false) :
    removeLoop (headerOf name) sk (sectionLines s ++ rest)
      = sectionLines s ++ removeLoop (headerOf name) false rest := by
  have hm' : startsWith (stripL s.header) (headerOf name) = false := hm
  have hbody : removeLoop (headerOf name) false (s.body ++ rest)
      = s.body ++ removeLoop (headerOf name) false rest :=
    removeLoop_keep_all s.body rest
      (fun l hl => not_matchesT_of_not_bracket (hb l hl))
  unfold sectionLines
  cases sk with
  | false => rw [List.cons_append, removeLoop_cons_keep _ hm', hbody]; rfl
  | true => rw [List.cons_append, removeLoop_cons_unskip _ hm' hh, hbody]; rfl

/-- The target section is dropped entirely from either skip state, leaving
the skip flag on. -/
theorem removeLoop_drop_section {name : List Char} (s : CfgSection) (rest : List (List Char))
    (sk : Bool)
    (hm : matchesT name s.header = true)
    (hb : ∀ l ∈ s.body, startsWith (stripL l) ['['] = false) :
    removeLoop (headerOf name) sk (sectionLines s ++ rest)
      = removeLoop (headerOf name) true rest := by
  unfold sectionLines
  rw [List.cons_append, removeLoop_cons_match _ _ hm]
  exact removeLoop_skip_all s.body rest hb

theorem linesOf_cons (s : CfgSection) (ss : List CfgSection) :
    linesOf (s :: ss) = sectionLines s ++ linesOf ss := by
  simp [linesOf]

theorem linesOf_append (a b : List CfgSection) :
    linesOf (a ++ b) = linesOf a ++ linesOf b := by
  simp [linesOf]

/-- A run of non-target well-formed sections passes through unchanged when
the skip flag is off. -/
theorem removeLoop_keep_sections {name : List Char} (ss : List CfgSection)
    (rest : List (List Char))
    (h : ∀ s ∈ ss, WFsection s ∧ matchesT name s.header = false) :
    removeLoop (headerOf name) false (linesOf ss ++ rest)
      = linesOf ss ++ removeLoop (headerOf name) false rest := by
  induction ss with
  | nil => simp [linesOf]
  | cons s ss ih =>
    obtain ⟨hwf, hm⟩ := h s (by simp)
    rw [linesOf_cons, List.append_assoc,
      removeLoop_keep_section s _ false hwf.1 hm (fun l hl => (hwf.2.2 l hl).1),
      ih (fun t ht => h t (by simp [ht])), List.append_assoc]

/-- A run of non-target well-formed sections ending the file passes
through unchanged from either skip state. -/
theorem removeLoop_keep_sections_end {name : List Char} (ss : List CfgSection)
    (h : ∀ s ∈ ss, WFsection s ∧ matchesT name s.header = false) (sk : Bool) :
    removeLoop (headerOf name) sk (linesOf ss) = linesOf ss := by
  induction ss generalizing sk with
  | nil => simp [linesOf, removeLoop_nil]
  | cons s ss ih =>
    obtain ⟨hwf, hm⟩ := h s (by simp)
    rw [linesOf_cons,
      removeLoop_keep_section s _ sk hwf.1 hm (fun l hl => (hwf.2.2 l hl).1),
      ih (fun t ht => h t (by simp [ht])) false]

/-- The removal loop on the lines of a well-formed config: the target
section's lines disappear, all other sections' lines survive. -/
theorem removedLines_config {name : List Char} (pre post : List CfgSection)
    (tgt : CfgSection)
    (hpre : ∀ s ∈ pre, WFsection s ∧ matchesT name s.header = false)
    (hpost : ∀ s ∈ post, WFsection s ∧ matchesT name s.header = false)
    (htgt : matchesT name tgt.header = true)
    (htgtb : ∀ l ∈ tgt.body, startsWith (stripL l) ['['] = false) :
    removedLines name (linesOf (pre ++ tgt :: post)) = linesOf (pre ++ post) := by
  unfold removedLines
  rw [linesOf_append, linesOf_cons, ← List.append_assoc,
    List.append_assoc (linesOf pre),
    removeLoop_keep_sections pre _ hpre,
    removeLoop_drop_section tgt _ false htgt htgtb,
    removeLoop_keep_sections_end post hpost true, linesOf_append]

theorem isLineBreak_newline : isLineBreak '\n' = true := by decide

theorem ne_cr_of_not_break {c : Char} (h : isLineBreak c = false) : (c == '\r') = false := by
  cases hq : c == '\r' with
  | false => rfl
  | true =>
    have : c = '\r' := by simpa using hq
    subst this
    simp [isLineBreak] at h

/-- Splitting a break-free line followed by a newline emits that line
(prefixed by the pending accumulator) and continues after the newline. -/
theorem splitlinesGo_break (l : List Char) :
    ∀ (rest acc : List Char), (∀ c ∈ l, isLineBreak c = false) →
      splitlinesGo (l ++ '\n' :: rest) acc = (acc.reverse ++ l) :: splitlinesGo rest [] := by
  induction l with
  | nil =>
    intro rest acc _
    cases rest with
    | nil => simp [splitlinesGo, isLineBreak_newline]
    | cons r rs =>
      simp [splitlinesGo, isLineBreak_newline,
        show ('\n' == '\r') = false from by decide]
  | cons c l ih =>
    intro rest acc hl
    have hc : isLineBreak c = false := hl c (by simp)
    have htail : ∀ x ∈ l, isLineBreak x = false := fun x hx => hl x (by simp [hx])
    cases l with
    | nil =>
      rw [show (c :: ([] : List Char)) ++ '\n' :: rest = c :: '\n' :: rest by simp]
      rw [show splitlinesGo (c :: '\n' :: rest) acc = splitlinesGo ('\n' :: rest) (c :: acc) by
        simp [splitlinesGo, hc]]
      have h2 := ih rest (c :: acc) (by simp)
      simp only [List.nil_append] at h2
      rw [h2]
      simp
    | cons c2 l2 =>
      rw [show (c :: c2 :: l2) ++ '\n' :: rest = c :: c2 :: (l2 ++ '\n' :: rest) by simp]
      rw [show splitlinesGo (c :: c2 :: (l2 ++ '\n' :: rest)) acc
          = splitlinesGo (c2 :: (l2 ++ '\n' :: rest)) (c :: acc) by simp [splitlinesGo, hc]]
      rw [show (c2 :: (l2 ++ '\n' :: rest)) = (c2 :: l2) ++ '\n' :: rest by simp]
      rw [ih rest (c :: acc) htail]
      simp

theorem joinLines_cons_cons (l l2 : List Char) (ls : List (List Char)) :
    joinLines (l :: l2 :: ls) = l ++ '\n' :: joinLines (l2 :: ls) := by
  simp [joinLines]

theorem joinNL_cons_cons (l l2 : List Char) (ls : List (List Char)) :
    joinNL (l :: l2 :: ls) = l ++ '\n' :: joinNL (l2 :: ls) := by
  simp [joinNL, joinLines_cons_cons]

/-- Round trip: splitting a file of the form `"\n".join(ls) + "\n"` built
from nonempty-list `ls` of break-free lines recovers `ls`. -/
theorem splitlines_joinNL (ls : List (List Char)) (hne : ls ≠ [])
    (hbf : ∀ l ∈ ls, ∀ c ∈ l, isLineBreak c = false) :
    splitlines (joinNL ls) = ls := by
  induction ls with
  | nil => exact absurd rfl hne
  | cons l ls ih =>
    cases ls with
    | nil =>
      have hl := hbf l (by simp)
      show splitlinesGo (joinNL [l]) [] = [l]
      rw [show joinNL [l] = l ++ '\n' :: [] by simp [joinNL, joinLines]]
      rw [splitlinesGo_break l [] [] hl]
      simp [splitlinesGo]
    | cons l2 ls2 =>
      have hl := hbf l (by simp)
      show splitlinesGo (joinNL (l :: l2 :: ls2)) [] = l :: l2 :: ls2
      rw [joinNL_cons_cons, splitlinesGo_break l _ [] hl]
      have := ih (by simp) (fun m hm => hbf m (by simp [hm]))
      simpa [splitlines] using this

/-- Every line produced by `splitlinesGo` is free of line breaks, provided
the pending accumulator is. -/
theorem splitlinesGo_breakFree :
    ∀ (n : Nat) (cs : List Char), cs.length ≤ n → ∀ (acc : List Char),
      (∀ c ∈ acc, isLineBreak c = false) →
      ∀ l ∈ splitlinesGo cs acc, ∀ c ∈ l, isLineBreak c = false := by
  intro n
  induction n with
  | zero =>
    intro cs hlen acc hacc
    have : cs = [] := List.length_eq_zero.mp (Nat.le_zero.mp hlen)
    subst this
    intro l hl
    by_cases h : acc = []
    · simp [splitlinesGo, h] at hl
    · simp [splitlinesGo, h] at hl
      subst hl
      intro c hc
      exact hacc c (by simpa using hc)
  | succ n ih =>
    intro cs hlen acc hacc
    cases cs with
    | nil =>
      intro l hl
      by_cases h : acc = []
      · simp [splitlinesGo, h] at hl
      · simp [splitlinesGo, h] at hl
        subst hl
        intro c hc
        exact hacc c (by simpa using hc)
    | cons c cs' =>
      cases cs' with
      | nil =>
        intro l hl
        by_cases hc : isLineBreak c = true
        · simp [splitlinesGo, hc] at hl
          subst hl
          intro x hx
          exact hacc x (by simpa using hx)
        · have hc' : isLineBreak c = false := by simpa using hc
          simp [splitlinesGo, hc'] at hl
          subst hl
          intro x hx
          rcases (by simpa using hx : x ∈ acc ∨ x = c) with h1 | h2
          · exact hacc x h1
          · subst h2; exact hc'
      | cons d cs2 =>
        have hlen2 : cs2.length ≤ n := by
          simp at hlen; omega
        have hlen1 : (d :: cs2).length ≤ n := by
          simp at hlen ⊢; omega
        by_cases hc : isLineBreak c = true
        · by_cases hcd : (c == '\r' && d == '\n') = true
          · intro l hl
            simp only [splitlinesGo, hc, if_true, hcd] at hl
            rcases (by simpa using hl : l = acc.reverse ∨ l ∈ splitlinesGo cs2 []) with h1 | h2
            · subst h1
              intro x hx
              exact hacc x (by simpa using hx)
            · exact ih cs2 hlen2 [] (by simp) l h2
          · intro l hl
            have hcd' : (c == '\r' && d == '\n') = false := by simpa using hcd
            simp only [splitlinesGo, hc, if_true, hcd', if_false, Bool.false_eq_true] at hl
            rcases (by simpa using hl : l = acc.reverse ∨ l ∈ splitlinesGo (d :: cs2) []) with h1 | h2
            · subst h1
              intro x hx
              exact hacc x (by simpa using hx)
            · exact ih (d :: cs2) hlen1 [] (by simp) l h2
        · have hc' : isLineBreak c = false := by simpa using hc
          intro l hl
          simp only [splitlinesGo, hc', Bool.false_eq_true, if_false] at hl
          refine ih (d :: cs2) hlen1 (c :: acc) ?_ l hl
          intro x hx
          rcases (by simpa using hx : x = c ∨ x ∈ acc) with h1 | h2
          · subst h1; exact hc'
          · exact hacc x h2

/-- Every line of a Python `splitlines` result is free of line breaks. -/
theorem splitlines_breakFree (cs : List Char) :
    ∀ l ∈ splitlines cs, ∀ c ∈ l, isLineBreak c = false :=
  splitlinesGo_breakFree cs.length cs le_rfl [] (by simp)

theorem joinNL_eq_unlines (ls : List (List Char)) (hne : ls ≠ []) :
    joinNL ls = unlines ls := by
  induction ls with
  | nil => exact absurd rfl hne
  | cons l ls ih =>
    cases ls with
    | nil => simp [joinNL, joinLines, unlines]
    | cons l2 ls2 =>
      rw [joinNL_cons_cons, ih (by simp)]
      simp [unlines]

theorem unlines_append (a b : List (List Char)) :
    unlines (a ++ b) = unlines a ++ unlines b := by
  induction a with
  | nil => simp [unlines]
  | cons l a ih => simp [unlines, ih]

theorem unlines_ne_nil (ls : List (List Char)) (hne : ls ≠ []) : unlines ls ≠ [] := by
  cases ls with
  | nil => exact absurd rfl hne
  | cons l ls => simp [unlines]

theorem unlines_length (ls : List (List Char)) : ls.length ≤ (unlines ls).length := by
  induction ls with
  | nil => simp [unlines]
  | cons l ls ih => simp [unlines]; omega

theorem unlines_getLast (ls : List (List Char)) (hne : ls ≠ []) :
    (unlines ls).getLast? = some '\n' := by
  induction ls with
  | nil => exact absurd rfl hne
  | cons l ls ih =>
    show (l ++ '\n' :: unlines ls).getLast? = some '\n'
    rw [List.getLast?_append_cons]
    cases ls with
    | nil => simp [unlines]
    | cons l2 ls2 =>
      rw [show ('\n' :: unlines (l2 :: ls2)) = ['\n'] ++ unlines (l2 :: ls2) by simp,
        List.getLast?_append, ih (by simp)]
      rfl

theorem endsOneNL_append (a b : List Char) (hb : 2 ≤ b.length) :
    endsOneNL (a ++ b) = endsOneNL b := by
  obtain ⟨c, d, t, hrev⟩ : ∃ c d t, b.reverse = c :: d :: t := by
    cases hq : b.reverse with
    | nil =>
      have : b = [] := by simpa using congrArg List.reverse hq
      subst this; simp at hb
    | cons c r =>
      cases r with
      | nil =>
        have : b = [c] := by simpa using congrArg List.reverse hq
        subst this; simp at hb
      | cons d t => exact ⟨c, d, t, rfl⟩
  unfold endsOneNL
  rw [List.reverse_append, hrev]
  rfl

theorem mem_of_getLast {α : Type} {l : List α} {a : α} (h : l.getLast? = some a) : a ∈ l := by
  induction l with
  | nil => simp at h
  | cons x xs ih =>
    cases xs with
    | nil =>
      simp [List.getLast?] at h
      simp [h]
    | cons y ys =>
      rw [List.getLast?_cons_cons] at h
      exact List.mem_cons_of_mem _ (ih h)

/-- If the last line is nonempty and free of line breaks, the serialised
file ends with exactly one trailing newline. -/
theorem endsOneNL_unlines (ls : List (List Char)) (hne : ls ≠ [])
    (hlast : ∀ l, ls.getLast? = some l → l ≠ [] ∧ ∀ c ∈ l, isLineBreak c = false) :
    endsOneNL (unlines ls) = true := by
  induction ls with
  | nil => exact absurd rfl hne
  | cons l ls ih =>
    cases ls with
    | nil =>
      obtain ⟨hlne, hlbf⟩ := hlast l (by simp)
      obtain ⟨c, t, hrev⟩ : ∃ c t, l.reverse = c :: t := by
        cases hq : l.reverse with
        | nil => exact absurd (by simpa using congrArg List.reverse hq) hlne
        | cons c t => exact ⟨c, t, rfl⟩
      have hc : c ∈ l := by
        have : c ∈ l.reverse := by simp [hrev]
        simpa using this
      have hcnb : isLineBreak c = false := hlbf c hc
      have hcne : (c == '\n') = false := by
        cases hq : c == '\n' with
        | false => rfl
        | true =>
          have : c = '\n' := by simpa using hq
          subst this
          rw [isLineBreak_newline] at hcnb
          exact absurd hcnb (by simp)
      show endsOneNL (l ++ '\n' :: unlines []) = true
      unfold endsOneNL
      rw [show l ++ '\n' :: unlines [] = l ++ ['\n'] by simp [unlines],
        List.reverse_append, hrev]
      simp [hcne]
    | cons l2 ls2 =>
      have h1 : unlines (l :: l2 :: ls2) = (l ++ ['\n']) ++ unlines (l2 :: ls2) := by
        simp [unlines]
      have h2 : 2 ≤ (unlines (l2 :: ls2)).length := by
        cases ls2 with
        | nil =>
          have hm := (hlast l2 (by simp)).1
          have hl2 : 0 < l2.length := List.length_pos.mpr hm
          have hlen : (unlines [l2]).length = l2.length + 1 := by simp [unlines]
          omega
        | cons l3 ls3 =>
          have hge := unlines_length (l2 :: l3 :: ls3)
          simp at hge
          omega
      rw [h1, endsOneNL_append _ _ h2]
      exact ih (by simp) (fun m hm => hlast m (by rw [List.getLast?_cons_cons]; exact hm))

theorem mem_linesOf {l : List Char} {ss : List CfgSection} (h : l ∈ linesOf ss) :
    ∃ s ∈ ss, l = s.header ∨ l ∈ s.body := by
  unfold linesOf at h
  rw [List.mem_flatten] at h
  obtain ⟨a, ha, hla⟩ := h
  rw [List.mem_map] at ha
  obtain ⟨s, hs, hsa⟩ := ha
  refine ⟨s, hs, ?_⟩
  rw [← hsa] at hla
  unfold sectionLines at hla
  rcases List.mem_cons.mp hla with h1 | h2
  · exact Or.inl h1
  · exact Or.inr h2

theorem ne_nil_of_bracket {l : List Char} (h : startsWith (stripL l) ['['] = true) :
    l ≠ [] := by
  intro e
  rw [e] at h
  exact absurd h (by decide)

/-- Every line of a sequence of well-formed sections is nonempty and free
of line breaks. -/
theorem linesOf_wf_lines {ss : List CfgSection} (hwf : ∀ s ∈ ss, WFsection s) :
    ∀ l ∈ linesOf ss, l ≠ [] ∧ ∀ c ∈ l, isLineBreak c = false := by
  intro l hl
  obtain ⟨s, hs, hcase⟩ := mem_linesOf hl
  obtain ⟨hh, hhbf, hbody⟩ := hwf s hs
  rcases hcase with h1 | h2
  · subst h1
    exact ⟨ne_nil_of_bracket hh, hhbf⟩
  · obtain ⟨_, hne, hbf⟩ := hbody l h2
    exact ⟨hne, hbf⟩

theorem linesOf_ne_nil {ss : List CfgSection} (hne : ss ≠ []) : linesOf ss ≠ [] := by
  cases ss with
  | nil => exact absurd rfl hne
  | cons s ss => simp [linesOf_cons, sectionLines]

/-- Claim C1 (amended): for every well-formed `.gitmodules` file
containing the target `[submodule "<name>"]` section, the fallback text
removal yields exactly the original bytes with that one section block
removed — the file is the concatenation of the byte blocks of its
sections, the result keeps precisely the other sections' blocks — and the
result ends with exactly one trailing newline, except that when the
target is the only section the result is the single byte `"\n"` rather
than the empty remainder (the `+ "\n"` of ci.py line 49). -/
theorem fallback_removes_target_section (name : List Char) (pre post : List CfgSection)
    (tgt : CfgSection)
    (hwf : ∀ s ∈ pre ++ tgt :: post, WFsection s)
    (htgt : matchesT name tgt.header = true)
    (hothers : ∀ s ∈ pre ++ post, matchesT name s.header = false) :
    joinNL (linesOf (pre ++ tgt :: post))
        = unlines (linesOf pre) ++ unlines (sectionLines tgt) ++ unlines (linesOf post)
    ∧ fallbackContent name (joinNL (linesOf (pre ++ tgt :: post)))
        = (if pre ++ post = [] then ['\n']
           else unlines (linesOf pre) ++ unlines (linesOf post))
    ∧ endsOneNL (fallbackContent name (joinNL (linesOf (pre ++ tgt :: post)))) = true := by
  have hwfpre : ∀ s ∈ pre, WFsection s := fun s hs => hwf s (by simp [hs])
  have hwfpost : ∀ s ∈ post, WFsection s := fun s hs => hwf s (by simp [hs])
  have hwftgt : WFsection tgt := hwf tgt (by simp)
  have hallne : linesOf (pre ++ tgt :: post) ≠ [] := linesOf_ne_nil (by simp)
  have hallwf : ∀ l ∈ linesOf (pre ++ tgt :: post), l ≠ [] ∧ ∀ c ∈ l, isLineBreak c = false :=
    linesOf_wf_lines hwf
  have hsplit : splitlines (joinNL (linesOf (pre ++ tgt :: post)))
      = linesOf (pre ++ tgt :: post) :=
    splitlines_joinNL _ hallne (fun l hl => (hallwf l hl).2)
  have hrem : removedLines name (linesOf (pre ++ tgt :: post)) = linesOf (pre ++ post) :=
    removedLines_config pre post tgt
      (fun s hs => ⟨hwfpre s hs, hothers s (by simp [hs])⟩)
      (fun s hs => ⟨hwfpost s hs, hothers s (by simp [hs])⟩)
      htgt (fun l hl => (hwftgt.2.2 l hl).1)
  have hfb : fallbackContent name (joinNL (linesOf (pre ++ tgt :: post)))
      = joinNL (linesOf (pre ++ post)) := by
    unfold fallbackContent
    rw [hsplit, hrem]
  have hremwf : ∀ l ∈ linesOf (pre ++ post), l ≠ [] ∧ ∀ c ∈ l, isLineBreak c = false := by
    apply linesOf_wf_lines
    intro s hs
    rcases List.mem_append.mp hs with h1 | h2
    · exact hwfpre s h1
    · exact hwfpost s h2
  refine ⟨?_, ?_, ?_⟩
  · rw [joinNL_eq_unlines _ hallne, linesOf_append, linesOf_cons, unlines_append,
      unlines_append]
    exact (List.append_assoc _ _ _).symm
  · by_cases hne : pre ++ post = []
    · rw [hfb, hne]
      have hval : joinNL (linesOf ([] : List CfgSection)) = ['\n'] := by decide
      simp [hval]
    · have hremne : linesOf (pre ++ post) ≠ [] := linesOf_ne_nil hne
      rw [hfb, joinNL_eq_unlines _ hremne, if_neg hne, linesOf_append, unlines_append]
  · by_cases hne : pre ++ post = []
    · rw [hfb, hne]
      decide
    · have hremne : linesOf (pre ++ post) ≠ [] := linesOf_ne_nil hne
      rw [hfb, joinNL_eq_unlines _ hremne]
      exact endsOneNL_unlines _ hremne
        (fun l hl => hremwf l (mem_of_getLast hl))

theorem removeLoop_mem {hdr : List Char} :
    ∀ (ls : List (List Char)) (sk : Bool) (l : List Char), l ∈ removeLoop hdr sk ls → l ∈ ls := by
  intro ls
  induction ls with
  | nil => intro sk l h; rw [removeLoop_nil] at h; simp at h
  | cons a ls ih =>
    intro sk l h
    by_cases hm : startsWith (stripL a) hdr = true
    · rw [removeLoop_cons_match _ sk hm] at h
      exact List.mem_cons_of_mem _ (ih true l h)
    · have hm' : startsWith (stripL a) hdr = false := by simpa using hm
      cases sk with
      | false =>
        rw [removeLoop_cons_keep _ hm'] at h
        rcases List.mem_cons.mp h with h1 | h2
        · simp [h1]
        · exact List.mem_cons_of_mem _ (ih false l h2)
      | true =>
        by_cases hb : startsWith (stripL a) ['['] = true
        · rw [removeLoop_cons_unskip _ hm' hb] at h
          rcases List.mem_cons.mp h with h1 | h2
          · simp [h1]
          · exact List.mem_cons_of_mem _ (ih false l h2)
        · have hb' : startsWith (stripL a) ['['] = false := by simpa using hb
          rw [removeLoop_cons_skip _ hm' hb'] at h
          exact List.mem_cons_of_mem _ (ih true l h)

/-- Every line the loop keeps fails the target-header test: a matching
line always switches `skip` on and is dropped. -/
theorem removeLoop_no_match {hdr : List Char} :
    ∀ (ls : List (List Char)) (sk : Bool) (l : List Char),
      l ∈ removeLoop hdr sk ls → startsWith (stripL l) hdr = false := by
  intro ls
  induction ls with
  | nil => intro sk l h; rw [removeLoop_nil] at h; simp at h
  | cons a ls ih =>
    intro sk l h
    by_cases hm : startsWith (stripL a) hdr = true
    · rw [removeLoop_cons_match _ sk hm] at h
      exact ih true l h
    · have hm' : startsWith (stripL a) hdr = false := by simpa using hm
      cases sk with
      | false =>
        rw [removeLoop_cons_keep _ hm'] at h
        rcases List.mem_cons.mp h with h1 | h2
        · subst h1; exact hm'
        · exact ih false l h2
      | true =>
        by_cases hb : startsWith (stripL a) ['['] = true
        · rw [removeLoop_cons_unskip _ hm' hb] at h
          rcases List.mem_cons.mp h with h1 | h2
          · subst h1; exact hm'
          · exact ih false l h2
        · have hb' : startsWith (stripL a) ['['] = false := by simpa using hb
          rw [removeLoop_cons_skip _ hm' hb'] at h
          exact ih true l h

theorem startsWith_nil_headerOf (name : List Char) :
    startsWith (stripL []) (headerOf name) = false := by
  rw [headerOf_eq]
  rfl

/-- Claim C6: the fallback rewrite is idempotent — applying it to its own
output changes nothing, whatever the input and target name. -/
theorem fallback_idempotent (name content : List Char) :
    fallbackContent name (fallbackContent name content) = fallbackContent name content := by
  conv_lhs => rw [fallbackContent]
  by_cases hemp : removedLines name (splitlines content) = []
  · rw [show fallbackContent name content = joinNL (removedLines name (splitlines content)) from rfl,
      hemp]
    have h1 : splitlines (joinNL []) = [[]] := rfl
    rw [h1]
    have h2 : removedLines name [[]] = [[]] := by
      unfold removedLines
      apply removeLoop_id_of_no_match
      intro l hl
      rw [List.mem_singleton.mp hl]
      exact startsWith_nil_headerOf name
    rw [h2]
    rfl
  · have hbf : ∀ l ∈ removedLines name (splitlines content), ∀ c ∈ l, isLineBreak c = false :=
      fun l hl => splitlines_breakFree content l (removeLoop_mem _ _ _ hl)
    have hnm : ∀ l ∈ removedLines name (splitlines content),
        startsWith (stripL l) (headerOf name) = false :=
      fun l hl => removeLoop_no_match _ _ _ hl
    rw [show fallbackContent name content = joinNL (removedLines name (splitlines content)) from rfl,
      splitlines_joinNL _ hemp hbf]
    exact congrArg joinNL (removeLoop_id_of_no_match _ (fun l hl => hnm l hl))

/-- The submodule name the script removes (ci.py line 114). -/
def nameLibs : List Char := ("libs").data

/-- Claim C5: skipping starts at a line matching `[submodule "<name>"]`
and ends (exclusively) at the next line that strips to a `[`-starting
line — whatever that line is — and without such a line it runs to the end
of the file. -/
theorem fallback_skip_boundary (name : List Char) (A B D : List (List Char)) (h c : List Char)
    (hA : ∀ l ∈ A, matchesT name l = false)
    (hh : matchesT name h = true)
    (hB : ∀ l ∈ B, startsWith (stripL l) ['['] = false)
    (hcb : startsWith (stripL c) ['['] = true)
    (hcm : matchesT name c = false) :
    removedLines name (A ++ h :: (B ++ c :: D)) = A ++ c :: removedLines name D
    ∧ removedLines name (A ++ h :: B) = A := by
  constructor
  · show removeLoop (headerOf name) false (A ++ h :: (B ++ c :: D)) = _
    rw [removeLoop_keep_all A _ (fun l hl => hA l hl),
      removeLoop_cons_match _ _ hh,
      removeLoop_skip_all B _ hB,
      removeLoop_cons_unskip _ hcm hcb]
    rfl
  · show removeLoop (headerOf name) false (A ++ h :: B) = A
    rw [removeLoop_keep_all A _ (fun l hl => hA l hl),
      removeLoop_cons_match _ _ hh]
    have hskip := @removeLoop_skip_all name B ([] : List (List Char)) hB
    rw [List.append_nil] at hskip
    rw [hskip, removeLoop_nil, List.append_nil]

/-- Claim C9 counterexample: on the input `"a\n\n"` (no target section,
original ends in a blank line) the fallback rewrites the file to the very
same bytes, which end with two newlines — not exactly one. -/
theorem fallback_two_trailing_newlines_cex :
    fallbackContent nameLibs (("a\n\n").data) = ("a\n\n").data
    ∧ endsOneNL (fallbackContent nameLibs (("a\n\n").data)) = false :=
  ⟨by decide, by decide⟩

/-- Claim C9 (amended): the rewritten registry file always ends with a
newline, and it ends with exactly one trailing newline whenever the last
kept line is not an empty line (without that proviso the original claim
fails, see the counterexample). -/
theorem fallback_trailing_newline (name content : List Char)
    (h : (removedLines name (splitlines content)).getLast? ≠ some ([] : List Char)) :
    (fallbackContent name content).getLast? = some '\n'
    ∧ endsOneNL (fallbackContent name content) = true := by
  by_cases hemp : removedLines name (splitlines content) = []
  · rw [show fallbackContent name content
        = joinNL (removedLines name (splitlines content)) from rfl, hemp]
    exact ⟨by decide, by decide⟩
  · have hbf : ∀ l ∈ removedLines name (splitlines content), ∀ ch ∈ l, isLineBreak ch = false :=
      fun l hl => splitlines_breakFree content l (removeLoop_mem _ _ _ hl)
    obtain ⟨m, hm⟩ : ∃ m, (removedLines name (splitlines content)).getLast? = some m := by
      cases hq : (removedLines name (splitlines content)).getLast? with
      | none => exact absurd (List.getLast?_eq_none_iff.mp hq) hemp
      | some m => exact ⟨m, rfl⟩
    have hmne : m ≠ [] := fun e => h (by rw [hm, e])
    have hmbf : ∀ ch ∈ m, isLineBreak ch = false := hbf m (mem_of_getLast hm)
    rw [show fallbackContent name content
        = joinNL (removedLines name (splitlines content)) from rfl,
      joinNL_eq_unlines _ hemp]
    refine ⟨unlines_getLast _ hemp, ?_⟩
    apply endsOneNL_unlines _ hemp
    intro l hl
    rw [hm] at hl
    have hlm : m = l := by simpa using hl
    subst hlm
    exact ⟨hmne, hmbf⟩

def c1pre : List CfgSection :=
  [⟨("[core]").data, [("\trepositoryformatversion = 0").data]⟩]

def c1tgt : CfgSection :=
  ⟨("[submodule \"libs\"]").data,
    [("\tpath = libs").data, ("\turl = https://example.invalid/libs.git").data]⟩

/-- Concrete instance of claim C1's theorem: hypotheses checked by
evaluation, conclusion by the theorem. -/
theorem fallback_removes_target_section_witness :
    (∀ s ∈ c1pre ++ c1tgt :: ([] : List CfgSection), WFsection s)
    ∧ matchesT nameLibs c1tgt.header = true
    ∧ (∀ s ∈ c1pre ++ ([] : List CfgSection), matchesT nameLibs s.header = false)
    ∧ fallbackContent nameLibs (joinNL (linesOf (c1pre ++ c1tgt :: [])))
        = (if c1pre ++ ([] : List CfgSection) = [] then ['\n']
           else unlines (linesOf c1pre) ++ unlines (linesOf ([] : List CfgSection)))
    ∧ endsOneNL (fallbackContent nameLibs (joinNL (linesOf (c1pre ++ c1tgt :: [])))) = true :=
  ⟨by decide, by decide, by decide,
    (fallback_removes_target_section nameLibs c1pre [] c1tgt
      (by decide) (by decide) (by decide)).2.1,
    (fallback_removes_target_section nameLibs c1pre [] c1tgt
      (by decide) (by decide) (by decide)).2.2⟩

/-- Claim C1 counterexample: a well-formed `.gitmodules` file whose only
section is the target.  The original file is exactly the target's byte
block, so the claimed output — the original with that block removed — is
the empty string; the fallback instead writes the single byte `"\n"`
(ci.py line 49 appends `"\n"` to the join of zero kept lines). -/
theorem fallback_only_section_cex :
    (∀ s ∈ [c1tgt], WFsection s)
    ∧ matchesT nameLibs c1tgt.header = true
    ∧ joinNL (linesOf [c1tgt]) = unlines (sectionLines c1tgt)
    ∧ fallbackContent nameLibs (joinNL (linesOf [c1tgt])) = ['\n']
    ∧ (['\n'] : List Char) ≠ [] :=
  ⟨by decide, by decide, by decide, by decide, by decide⟩

def c5A : List (List Char) := [("[core]").data]

def c5B : List (List Char) := [("\tpath = libs").data]

def c5D : List (List Char) := [("\turl = x").data]

def c5hd : List Char := ("[submodule \"libs\"]").data

def c5c : List Char := ("[submodule \"other\"]").data

/-- Concrete instance of claim C5's theorem: hypotheses checked by
evaluation, conclusion by the theorem. -/
theorem fallback_skip_boundary_witness :
    (∀ l ∈ c5A, matchesT nameLibs l = false)
    ∧ matchesT nameLibs c5hd = true
    ∧ (∀ l ∈ c5B, startsWith (stripL l) ['['] = false)
    ∧ startsWith (stripL c5c) ['['] = true
    ∧ matchesT nameLibs c5c = false
    ∧ removedLines nameLibs (c5A ++ c5hd :: (c5B ++ c5c :: c5D))
        = c5A ++ c5c :: removedLines nameLibs c5D
    ∧ removedLines nameLibs (c5A ++ c5hd :: c5B) = c5A :=
  ⟨by decide, by decide, by decide, by decide, by decide,
    (fallback_skip_boundary nameLibs c5A c5B c5D c5hd c5c
      (by decide) (by decide) (by decide) (by decide) (by decide)).1,
    (fallback_skip_boundary nameLibs c5A c5B c5D c5hd c5c
      (by decide) (by decide) (by decide) (by decide) (by decide)).2⟩

/-- Concrete instance of claim C9's amended theorem. -/
theorem fallback_trailing_newline_witness :
    (removedLines nameLibs (splitlines (("a\n").data))).getLast? ≠ some ([] : List Char)
    ∧ (fallbackContent nameLibs (("a\n").data)).getLast? = some '\n'
    ∧ endsOneNL (fallbackContent nameLibs (("a\n").data)) = true :=
  ⟨by decide,
    (fallback_trailing_newline nameLibs (("a\n").data) (by decide)).1,
    (fallback_trailing_newline nameLibs (("a\n").data) (by decide)).2⟩

/-- Outcomes of the external commands and filesystem tests that
`remove_submodule` (ci.py lines 23-80) depends on.  Each Bool records
whether the corresponding `git` call exits 0; `structuredContent` is the
file produced by a successful `git config --remove-section` call. -/
structure GitEnv where
  gitmodulesExists : Bool
  content : List Char
  structuredSucceeds : Bool
  structuredContent : List Char
  addSucceeds : Bool
  localConfigSucceeds : Bool
  rmCachedSucceeds : Bool
  submodulePathExists : Bool
  modulesDirExists : Bool

/-- The four warnings `remove_submodule` can print (ci.py lines 35, 58,
64, 70). -/
inductive RWarn where
  | notInGitmodules
  | stageFailed
  | notInConfig
  | rmCachedFailed
deriving DecidableEq

/-- Observable outcome of one `remove_submodule` run. -/
structure RemoveResult where
  finalContent : Option (List Char)
  stagedAttempted : Bool
  warnings : List RWarn
  uncaught : Option Nat
  rmCachedAttempted : Bool
  submoduleDirRemoved : Bool
  modulesDirRemoved : Bool

/-- Model of `remove_submodule` (ci.py lines 23-80).  Every external
command is wrapped in try/except, so no `CalledProcessError` escapes
(`uncaught` is never set); each failing best-effort step only appends a
warning; `modified_gitmodules` is set by both the structured path and the
fallback path, and staging is attempted exactly when it is set. -/
def removeSubmodule (name : List Char) (env : GitEnv) : RemoveResult :=
  let step1 : Option (List Char) × Bool × List RWarn :=
    if env.gitmodulesExists then
      if env.structuredSucceeds then (some env.structuredContent, true, [])
      else (some (fallbackContent name env.content), true, [RWarn.notInGitmodules])
    else (none, false, [])
  let modifiedGitmodules := step1.2.1
  let w2 := step1.2.2 ++
    (if modifiedGitmodules then (if env.addSucceeds then [] else [RWarn.stageFailed]) else [])
  let w3 := w2 ++ (if env.localConfigSucceeds then [] else [RWarn.notInConfig])
  let w4 := w3 ++ (if env.rmCachedSucceeds then [] else [RWarn.rmCachedFailed])
  { finalContent := step1.1
    stagedAttempted := modifiedGitmodules
    warnings := w4
    uncaught := none
    rmCachedAttempted := true
    submoduleDirRemoved := env.submodulePathExists
    modulesDirRemoved := env.modulesDirExists }

/-- Claim C7: every "target may already be absent" failure inside
`remove_submodule` is tolerated — no external-command failure escapes, the
de-index step is always reached, the directory deletions always run when
the directories exist, and each warning appears exactly when its step
failed. -/
theorem remove_submodule_best_effort (name : List Char) (env : GitEnv) :
    (removeSubmodule name env).uncaught = none
    ∧ (removeSubmodule name env).rmCachedAttempted = true
    ∧ (removeSubmodule name env).submoduleDirRemoved = env.submodulePathExists
    ∧ (removeSubmodule name env).modulesDirRemoved = env.modulesDirExists
    ∧ (RWarn.notInGitmodules ∈ (removeSubmodule name env).warnings
        ↔ env.gitmodulesExists = true ∧ env.structuredSucceeds = false)
    ∧ (RWarn.stageFailed ∈ (removeSubmodule name env).warnings
        ↔ env.gitmodulesExists = true ∧ env.addSucceeds = false)
    ∧ (RWarn.notInConfig ∈ (removeSubmodule name env).warnings
        ↔ env.localConfigSucceeds = false)
    ∧ (RWarn.rmCachedFailed ∈ (removeSubmodule name env).warnings
        ↔ env.rmCachedSucceeds = false) := by
  obtain ⟨ge, co, ss, sc, ad, lc, rc, spe, mde⟩ := env
  cases ge <;> cases ss <;> cases ad <;> cases lc <;> cases rc <;>
    simp [removeSubmodule]

/-- Environment for the C8 counterexample: `.gitmodules` exists but holds
no `[submodule "libs"]` section, so the structured removal fails and the
fallback rewrites the file with byte-identical content. -/
def c8Env : GitEnv :=
  { gitmodulesExists := true
    content := ("x = 1\n").data
    structuredSucceeds := false
    structuredContent := []
    addSucceeds := true
    localConfigSucceeds := true
    rmCachedSucceeds := true
    submodulePathExists := false
    modulesDirExists := false }

/-- Claim C8 counterexample: the registry file is staged although neither
method modified it — the fallback rewrote it with exactly the original
bytes. -/
theorem staged_without_modification :
    (removeSubmodule nameLibs c8Env).stagedAttempted = true
    ∧ (removeSubmodule nameLibs c8Env).finalContent = some c8Env.content :=
  ⟨rfl, by decide⟩

/-- Claim C8 (amended): the registry file is staged iff it exists, i.e.
iff one of the two removal methods ran — the structured removal succeeded,
or the fallback rewrote the file, even when that rewrite left the bytes
unchanged. -/
theorem staged_iff_registry_exists (name : List Char) (env : GitEnv) :
    (removeSubmodule name env).stagedAttempted = env.gitmodulesExists := by
  obtain ⟨ge, co, ss, sc, ad, lc, rc, spe, mde⟩ := env
  cases ge <;> cases ss <;> simp [removeSubmodule]

/-- Steps of the top-level workflow, in the order `main` performs them
(ci.py lines 98-123). -/
inductive Event where
  | cloneCmd
  | backupCopy
  | removeSub
  | syncCmd
  | updateCmd
  | copyStep
deriving DecidableEq

/-- External outcomes `main` depends on: directory-existence tests and
the exit codes of the three fatal commands (0 means success). -/
structure MainEnv where
  ciTmpExists : Bool
  ciTmpBkExists : Bool
  cloneExit : Nat
  git : GitEnv
  syncExit : Nat
  updateExit : Nat

/-- Observable outcome of one run of the script: the process exit code
(`e.returncode` via the `__main__` handler of ci.py lines 126-131, 0 on
success), whether the final copy step ran, the ordered step log and the
submodule-removal outcome when reached. -/
structure MainResult where
  exitCode : Nat
  copyExecuted : Bool
  log : List Event
  removal : Option RemoveResult

/-- The part of `main` after the staging checkout exists (ci.py lines
113-123): remove the `libs` submodule (never fatal), then `git submodule
sync`, then `git submodule update --init --recursive`, then the copy; a
nonzero command exit raises `CalledProcessError`, which `__main__` turns
into that exit code. -/
def mainAfterAcq (env : MainEnv) (acqLog : List Event) : MainResult :=
  let r := removeSubmodule nameLibs env.git
  let log1 := acqLog ++ [Event.removeSub]
  if env.syncExit = 0 then
    if env.updateExit = 0 then
      { exitCode := 0, copyExecuted := true,
        log := log1 ++ [Event.syncCmd, Event.updateCmd, Event.copyStep], removal := some r }
    else
      { exitCode := env.updateExit, copyExecuted := false,
        log := log1 ++ [Event.syncCmd, Event.updateCmd], removal := some r }
  else
    { exitCode := env.syncExit, copyExecuted := false,
      log := log1 ++ [Event.syncCmd], removal := some r }

/-- Model of `main` plus the `__main__` exception handler (ci.py lines
98-131).  Acquisition: reuse an existing `ci-tmp`, else copy `ci-tmp-bk`
if present, else clone (fatal if the clone fails). -/
def mainRun (env : MainEnv) : MainResult :=
  if env.ciTmpExists then mainAfterAcq env []
  else if env.ciTmpBkExists then mainAfterAcq env [Event.backupCopy]
  else if env.cloneExit = 0 then mainAfterAcq env [Event.cloneCmd]
  else
    { exitCode := env.cloneExit, copyExecuted := false,
      log := [Event.cloneCmd], removal := none }

/-- Claim C3: a fatal command failure (clone, submodule sync, submodule
update) halts the workflow before the copy step and the process exits with
that command's own exit code; when every command succeeds the process
exits 0 and the copy step runs. -/
theorem main_exit_codes (env : MainEnv) :
    ((env.ciTmpExists = false ∧ env.ciTmpBkExists = false ∧ env.cloneExit ≠ 0) →
      (mainRun env).exitCode = env.cloneExit ∧ (mainRun env).copyExecuted = false)
    ∧ ((env.ciTmpExists = true ∨ env.ciTmpBkExists = true ∨ env.cloneExit = 0) →
        env.syncExit ≠ 0 →
      (mainRun env).exitCode = env.syncExit ∧ (mainRun env).copyExecuted = false)
    ∧ ((env.ciTmpExists = true ∨ env.ciTmpBkExists = true ∨ env.cloneExit = 0) →
        env.syncExit = 0 → env.updateExit ≠ 0 →
      (mainRun env).exitCode = env.updateExit ∧ (mainRun env).copyExecuted = false)
    ∧ ((env.ciTmpExists = true ∨ env.ciTmpBkExists = true ∨ env.cloneExit = 0) →
        env.syncExit = 0 → env.updateExit = 0 →
      (mainRun env).exitCode = 0 ∧ (mainRun env).copyExecuted = true) := by
  obtain ⟨tm, bk, ce, g, se, ue⟩ := env
  cases tm <;> cases bk <;>
    by_cases hce : ce = 0 <;> by_cases hse : se = 0 <;> by_cases hue : ue = 0 <;>
      simp_all [mainRun, mainAfterAcq]

/-- Claim C4: acquisition obeys exactly three cases — no staging and no
backup issues exactly one clone (as the very first step, before submodule
removal) and no backup copy; no staging but a backup issues exactly one
backup copy and no clone; an existing staging directory issues neither. -/
theorem acquisition_cases (env : MainEnv) :
    ((env.ciTmpExists = false ∧ env.ciTmpBkExists = false) →
      (mainRun env).log.count Event.cloneCmd = 1
      ∧ (mainRun env).log.count Event.backupCopy = 0
      ∧ (mainRun env).log.head? = some Event.cloneCmd)
    ∧ ((env.ciTmpExists = false ∧ env.ciTmpBkExists = true) →
      (mainRun env).log.count Event.backupCopy = 1
      ∧ (mainRun env).log.count Event.cloneCmd = 0)
    ∧ (env.ciTmpExists = true →
      (mainRun env).log.count Event.cloneCmd = 0
      ∧ (mainRun env).log.count Event.backupCopy = 0) := by
  obtain ⟨tm, bk, ce, g, se, ue⟩ := env
  cases tm <;> cases bk <;>
    by_cases hce : ce = 0 <;> by_cases hse : se = 0 <;> by_cases hue : ue = 0 <;>
      simp_all [mainRun, mainAfterAcq]

/-- A trivial submodule-removal environment for concrete workflow runs. -/
def gitEnv0 : GitEnv :=
  { gitmodulesExists := false
    content := []
    structuredSucceeds := false
    structuredContent := []
    addSucceeds := true
    localConfigSucceeds := true
    rmCachedSucceeds := true
    submodulePathExists := false
    modulesDirExists := false }

/-- Fresh run whose clone fails with exit code 3. -/
def mainEnvCloneFail : MainEnv :=
  { ciTmpExists := false
    ciTmpBkExists := false
    cloneExit := 3
    git := gitEnv0
    syncExit := 0
    updateExit := 0 }

/-- Concrete instance of claim C3's theorem: a failing clone makes the
process exit 3 without reaching the copy step. -/
theorem main_exit_codes_witness :
    (mainRun mainEnvCloneFail).exitCode = 3
    ∧ (mainRun mainEnvCloneFail).copyExecuted = false :=
  (main_exit_codes mainEnvCloneFail).1 (by decide)

/-- Run with no staging directory but an existing backup. -/
def mainEnvBackup : MainEnv :=
  { ciTmpExists := false
    ciTmpBkExists := true
    cloneExit := 0
    git := gitEnv0
    syncExit := 0
    updateExit := 0 }

/-- Concrete instance of claim C4's theorem: with a backup present the
workflow copies it once and never clones. -/
theorem acquisition_cases_witness :
    (mainRun mainEnvBackup).log.count Event.backupCopy = 1
    ∧ (mainRun mainEnvBackup).log.count Event.cloneCmd = 0 :=
  (acquisition_cases mainEnvBackup).2.1 (by decide)

/-- A filesystem node inside a copied tree: a regular file, a directory
with named children, or a symbolic link (kept symbolic, with its target
text). -/
inductive Node where
  | file
  | dir (children : List (String × Node))
  | link (target : String)

/-- A top-level entry of the source root as `copy_local_repo_to_libs`
classifies it with `item.is_dir()` (which follows symlinks): a regular
file, a real directory, a symlink resolving to a file, a symlink
resolving to a directory (with the resolved children), or a dangling
symlink (on which `shutil.copy2` raises). -/
inductive SrcItem where
  | file
  | dir (children : List (String × Node))
  | linkToFile
  | linkToDir (children : List (String × Node))
  | brokenLink

/-- Whether a top-level entry is a dangling symlink. -/
def isBroken : SrcItem → Bool
  | SrcItem.brokenLink => true
  | _ => false

mutual

/-- The copy `shutil.copytree(..., symlinks=True)` performs on one child
node (per the library's documented behaviour): regular files are copied
with `copy2`, directories recursively, and symlinks are re-created as
symlinks rather than followed. -/
def copyNode : Node → Node
  | Node.file => Node.file
  | Node.dir cs => Node.dir (copyEntries cs)
  | Node.link t => Node.link t

/-- `copytree` over the named children of a directory. -/
def copyEntries : List (String × Node) → List (String × Node)
  | [] => []
  | (n, x) :: rest => (n, copyNode x) :: copyEntries rest

end

/-- The destination entry produced for one top-level item (ci.py lines
91-95): `item.is_dir()` chooses `copytree(symlinks=True)` (which reads
through a top-level symlink, creating a real directory) and everything
else goes to `shutil.copy2`, which follows symlinks — so a top-level
symlink to a file is materialised as a regular file, and a dangling
symlink makes `copy2` raise (`none`). -/
def copyItem : SrcItem → Option Node
  | SrcItem.file => some Node.file
  | SrcItem.dir cs => some (Node.dir (copyEntries cs))
  | SrcItem.linkToFile => some Node.file
  | SrcItem.linkToDir cs => some (Node.dir (copyEntries cs))
  | SrcItem.brokenLink => none

/-- Model of `copy_local_repo_to_libs` (ci.py lines 83-95) on an
initially empty destination: iterate over the top-level entries, skip the
one named `excl` (`exclude_dir`), copy every other entry; `none` when a
copy raises. -/
def copyLocalRepoToLibs : List (String × SrcItem) → String → Option (List (String × Node))
  | [], _ => some []
  | (n, it) :: rest, excl =>
    if n = excl then copyLocalRepoToLibs rest excl
    else
      match copyItem it with
      | none => none
      | some node =>
        match copyLocalRepoToLibs rest excl with
        | none => none
        | some ds => some ((n, node) :: ds)

/-- Reference description (following the spec's words for the amended
claim) of the destination entry for one source item: files stay files,
directories are copied as they are, a top-level symlink is dereferenced to
what it resolves to.  The `brokenLink` arm is arbitrary; it is unreachable
under the no-dangling-symlink hypothesis. -/
def derefTop : SrcItem → Node
  | SrcItem.file => Node.file
  | SrcItem.dir cs => Node.dir cs
  | SrcItem.linkToFile => Node.file
  | SrcItem.linkToDir cs => Node.dir cs
  | SrcItem.brokenLink => Node.file

mutual

theorem copyNode_id : ∀ n : Node, copyNode n = n
  | Node.file => by rw [copyNode]
  | Node.dir cs => by rw [copyNode, copyEntries_id cs]
  | Node.link t => by rw [copyNode]

theorem copyEntries_id : ∀ cs : List (String × Node), copyEntries cs = cs
  | [] => by rw [copyEntries]
  | (n, x) :: rest => by rw [copyEntries, copyNode_id x, copyEntries_id rest]

end

theorem copyItem_eq {it : SrcItem} (h : isBroken it = false) :
    copyItem it = some (derefTop it) := by
  cases it with
  | file => rfl
  | dir cs => rw [copyItem, derefTop, copyEntries_id]
  | linkToFile => rfl
  | linkToDir cs => rw [copyItem, derefTop, copyEntries_id]
  | brokenLink => exact absurd h (by simp [isBroken])

/-- Full characterisation of the copy step when no dangling symlink is
present: the destination holds, in order, every top-level entry not named
`excl`, with directories copied unchanged (inner symlinks preserved) and
top-level symlinks dereferenced. -/
theorem copyLocal_eq (entries : List (String × SrcItem)) (excl : String)
    (hnb : ∀ p ∈ entries, isBroken p.2 = false) :
    copyLocalRepoToLibs entries excl
      = some ((entries.filter (fun p => ¬ p.1 = excl)).map (fun p => (p.1, derefTop p.2))) := by
  induction entries with
  | nil => rfl
  | cons p rest ih =>
    obtain ⟨n, it⟩ := p
    have h1 := hnb (n, it) (by simp)
    have ih2 := ih (fun q hq => hnb q (by simp [hq]))
    by_cases he : n = excl
    · subst he
      simp [copyLocalRepoToLibs, ih2]
    · simp [copyLocalRepoToLibs, he, copyItem_eq h1, ih2]

/-- Claim C2 counterexample: a source with two top-level entries, one of
them the excluded name, where the other entry is a symbolic link to a
file.  The copy produces the expected N-1 = 1 entries, but the link is
dereferenced: the destination entry is a regular file, not a link. -/
theorem copy_dereferences_top_level_link :
    copyLocalRepoToLibs [("liblink", SrcItem.linkToFile), ("ci-tmp", SrcItem.file)] "ci-tmp"
      = some [("liblink", Node.file)]
    ∧ ∀ t, Node.file ≠ Node.link t :=
  ⟨rfl, fun _ h => Node.noConfusion h⟩

theorem copy_filter_length (excl : String) :
    ∀ entries : List (String × SrcItem),
      (entries.filter (fun p => ¬ p.1 = excl)).length
        + entries.countP (fun p => p.1 = excl) = entries.length := by
  intro entries
  induction entries with
  | nil => simp
  | cons p rest ih =>
    by_cases hp : p.1 = excl
    · simp [List.filter_cons, List.countP_cons, hp] at ih ⊢
      omega
    · simp [List.filter_cons, List.countP_cons, hp] at ih ⊢
      omega

/-- Claim C2 (amended): with no dangling symlink and exactly one entry
carrying the excluded name, the copy succeeds and produces exactly N-1
entries; directory entries are copied recursively with their entire
contents — inner symbolic links included — preserved unchanged, while
top-level symbolic links are dereferenced (a link to a file becomes a
regular file, a link to a directory a real directory). -/
theorem copy_count_and_recursive (entries : List (String × SrcItem)) (excl : String)
    (hnb : ∀ p ∈ entries, isBroken p.2 = false)
    (hone : entries.countP (fun p => p.1 = excl) = 1) :
    copyLocalRepoToLibs entries excl
      = some ((entries.filter (fun p => ¬ p.1 = excl)).map (fun p => (p.1, derefTop p.2)))
    ∧ ∀ ds, copyLocalRepoToLibs entries excl = some ds → ds.length + 1 = entries.length := by
  have he := copyLocal_eq entries excl hnb
  refine ⟨he, ?_⟩
  intro ds hds
  rw [he] at hds
  have hds' : ds = (entries.filter (fun p => ¬ p.1 = excl)).map (fun p => (p.1, derefTop p.2)) := by
    simpa using hds.symm
  subst hds'
  rw [List.length_map]
  have hsplit := copy_filter_length excl entries
  omega

def c2entries : List (String × SrcItem) :=
  [("src", SrcItem.file), ("ci-tmp", SrcItem.dir []),
    ("etl", SrcItem.dir [("inner", Node.link "src")])]

/-- Concrete instance of claim C2's amended theorem. -/
theorem copy_count_and_recursive_witness :
    (∀ p ∈ c2entries, isBroken p.2 = false)
    ∧ c2entries.countP (fun p => p.1 = "ci-tmp") = 1
    ∧ copyLocalRepoToLibs c2entries "ci-tmp"
        = some ((c2entries.filter (fun p => ¬ p.1 = "ci-tmp")).map (fun p => (p.1, derefTop p.2)))
    ∧ ∀ ds, copyLocalRepoToLibs c2entries "ci-tmp" = some ds → ds.length + 1 = c2entries.length :=
  ⟨by decide, by decide,
    (copy_count_and_recursive c2entries "ci-tmp" (by decide) (by decide)).1,
    (copy_count_and_recursive c2entries "ci-tmp" (by decide) (by decide)).2⟩

/-- Claim C10: the copy excludes exactly the top-level entries named
`ci-tmp`; everything else — the `.git` metadata directory included — is
copied into the destination. -/
theorem copy_excludes_only_ci_tmp (entries : List (String × SrcItem))
    (hnb : ∀ p ∈ entries, isBroken p.2 = false) :
    ∃ ds, copyLocalRepoToLibs entries "ci-tmp" = some ds
      ∧ ds.map Prod.fst = (entries.filter (fun p => ¬ p.1 = "ci-tmp")).map Prod.fst
      ∧ (∀ it, (".git", it) ∈ entries → ".git" ∈ ds.map Prod.fst) := by
  refine ⟨_, copyLocal_eq entries "ci-tmp" hnb, ?_, ?_⟩
  · rw [List.map_map]
    rfl
  · intro it hit
    have hmem : (".git", it) ∈ entries.filter (fun p => ¬ p.1 = "ci-tmp") := by
      rw [List.mem_filter]
      exact ⟨hit, by simp⟩
    rw [List.map_map]
    exact List.mem_map.mpr ⟨(".git", it), hmem, rfl⟩

def c10entries : List (String × SrcItem) :=
  [(".git", SrcItem.dir []), ("ci-tmp", SrcItem.dir []), ("README", SrcItem.file)]

/-- Concrete instance of claim C10's theorem. -/
theorem copy_excludes_only_ci_tmp_witness :
    (∀ p ∈ c10entries, isBroken p.2 = false)
    ∧ ∃ ds, copyLocalRepoToLibs c10entries "ci-tmp" = some ds
      ∧ ds.map Prod.fst = (c10entries.filter (fun p => ¬ p.1 = "ci-tmp")).map Prod.fst
      ∧ (∀ it, (".git", it) ∈ c10entries → ".git" ∈ ds.map Prod.fst) :=
  ⟨by decide, copy_excludes_only_ci_tmp c10entries (by decide)⟩
